import Mathlib

/-!
Verification of `md-link-inline.py`, a converter of reference-style markdown
links (`[text][ref]` plus `[ref]: url` definition lines) into inline links
(`[text](url)`).

The core of the program is `process_file`, a pure three-pass text transform:

1. `reference_links = dict(re.findall(r"^\[([^\]]+)\]:\s*(.+)$", content, re.MULTILINE))`
2. `updated = re.sub(r"\[([^\]]+)\]\[([^\]]+)\]", replace_link, content)` where
   `replace_link` yields `[text](url)` for a resolvable reference key and the
   original match otherwise
3. `updated = re.sub(r"^\[([^\]]+)\]:\s*(.+)$", "", updated, flags=re.MULTILINE).strip()`

Documents are modelled as `List Char`.  The two regular expressions are
embedded as deterministic matching functions: every character class in the
patterns is followed by a character excluded from the class, so Python's
greedy matching is deterministic here, except for `\s*(.+)$`, whose
greedy-with-backtracking behaviour is implemented by `matchWsTarget`.
`re.MULTILINE` anchors (`^` matching at position 0 and right after each
newline, `$` matching before a newline or at the end) are modelled by
threading an at-line-start flag through the scans; `re.sub` and
`re.findall` scan left to right and continue right after each
(non-overlapping) match, which never has length zero for these patterns.

Python's `\s` and `str.strip` whitespace is modelled by its ASCII part (the
documents considered contain no other whitespace).

The scanning functions take an explicit fuel argument (the input length
suffices, as every match consumes at least one character) so that all
definitions reduce definitionally on concrete inputs; fuel-independence is
proved once per function.
-/

namespace MdLinkInline

/-- Python's `\s` (and `str.strip`) whitespace, ASCII range. -/
def pySpace (c : Char) : Bool :=
  decide (c = ' ' ∨ c = '\t' ∨ c = '\n' ∨ c = '\r' ∨ c = '\x0b' ∨ c = '\x0c')

/-- The character class `[^\]]`: any character other than `]`. -/
def nonRB (c : Char) : Bool := decide (c ≠ ']')

/-- `.` outside DOTALL mode: any character except a newline. -/
def nonNL (c : Char) : Bool := decide (c ≠ '\n')

/-- Flag update for the MULTILINE `^` anchor: after reading `c` the next
position is at a line start exactly when `c` is a newline. -/
def isNL (c : Char) : Bool := decide (c = '\n')

/-- `(.+)$` in MULTILINE mode: a greedy nonempty run of non-newline
characters; `$` then always holds at its end (before a newline or at the
end of the input).  Returns the captured run and the remaining input. -/
def matchTarget (s : List Char) : Option (List Char × List Char) :=
  match s with
  | [] => none
  | c :: _ => if c = '\n' then none else some (s.takeWhile nonNL, s.dropWhile nonNL)

/-- `\s*(.+)$`: Python consumes the greedy `\s*` first and backs off one
whitespace character at a time until `(.+)$` matches. -/
def matchWsTarget : List Char → Option (List Char × List Char)
  | [] => none
  | c :: cs =>
    if pySpace c then
      match matchWsTarget cs with
      | some r => some r
      | none => matchTarget (c :: cs)
    else matchTarget (c :: cs)

/-- One attempt of the definition pattern `\[([^\]]+)\]:\s*(.+)$` at the
current position (the MULTILINE `^` anchor is handled by the callers).
Returns `((key, target), rest)` on success. -/
def matchDef (s : List Char) : Option ((List Char × List Char) × List Char) :=
  match s with
  | [] => none
  | c :: s1 =>
    if c = '[' then
      if s1.takeWhile nonRB = [] then none
      else
        match s1.dropWhile nonRB with
        | b :: d :: s2 =>
          if b = ']' ∧ d = ':' then
            match matchWsTarget s2 with
            | some (t, rest) => some ((s1.takeWhile nonRB, t), rest)
            | none => none
          else none
        | _ => none
    else none

/-- One attempt of the usage pattern `\[([^\]]+)\]\[([^\]]+)\]` at the
current position.  Returns `(text, ref, rest)` on success. -/
def matchUsage (s : List Char) : Option (List Char × List Char × List Char) :=
  match s with
  | [] => none
  | c :: s1 =>
    if c = '[' then
      if s1.takeWhile nonRB = [] then none
      else
        match s1.dropWhile nonRB with
        | b :: d :: s2 =>
          if b = ']' ∧ d = '[' then
            if s2.takeWhile nonRB = [] then none
            else
              match s2.dropWhile nonRB with
              | e :: rest =>
                if e = ']' then some (s1.takeWhile nonRB, s2.takeWhile nonRB, rest)
                else none
              | [] => none
          else none
        | _ => none
    else none

/-! Small `takeWhile` and `dropWhile` facts used throughout. -/

lemma mem_takeWhile {p : Char → Bool} : ∀ {l : List Char} {c : Char},
    c ∈ l.takeWhile p → p c = true := by
  intro l
  induction l with
  | nil => intro c h; simp [List.takeWhile] at h
  | cons a l ih =>
    intro c h
    rw [List.takeWhile_cons] at h
    by_cases hp : p a = true
    · simp [hp] at h
      rcases h with h | h
      · exact h ▸ hp
      · exact ih h
    · simp [Bool.eq_false_iff.2 hp] at h

lemma takeWhile_all {p : Char → Bool} {l : List Char} (h : ∀ c ∈ l, p c = true) :
    l.takeWhile p = l := by
  induction l with
  | nil => rfl
  | cons a l ih =>
    rw [List.takeWhile_cons, h a (by simp)]
    simp only [ite_true]
    rw [ih fun c hc => h c (by simp [hc])]

lemma dropWhile_all {p : Char → Bool} {l : List Char} (h : ∀ c ∈ l, p c = true) :
    l.dropWhile p = [] := by
  induction l with
  | nil => rfl
  | cons a l ih =>
    rw [List.dropWhile_cons, h a (by simp)]
    simp only [ite_true]
    exact ih fun c hc => h c (by simp [hc])

lemma takeWhile_middle {p : Char → Bool} {a : List Char} {x : Char} {b : List Char}
    (ha : ∀ c ∈ a, p c = true) (hx : p x = false) :
    (a ++ x :: b).takeWhile p = a := by
  induction a with
  | nil => simp [List.takeWhile_cons, hx]
  | cons c a ih =>
    rw [List.cons_append, List.takeWhile_cons, ha c (by simp)]
    simp only [ite_true]
    rw [ih fun d hd => ha d (by simp [hd])]

lemma dropWhile_middle {p : Char → Bool} {a : List Char} {x : Char} {b : List Char}
    (ha : ∀ c ∈ a, p c = true) (hx : p x = false) :
    (a ++ x :: b).dropWhile p = x :: b := by
  induction a with
  | nil => simp [List.dropWhile_cons, hx]
  | cons c a ih =>
    rw [List.cons_append, List.dropWhile_cons, ha c (by simp)]
    simp only [ite_true]
    exact ih fun d hd => ha d (by simp [hd])

lemma dropWhile_head_false {p : Char → Bool} : ∀ {l : List Char} {x : Char} {xs : List Char},
    l.dropWhile p = x :: xs → p x = false := by
  intro l
  induction l with
  | nil => intro x xs h; simp [List.dropWhile] at h
  | cons a l ih =>
    intro x xs h
    rw [List.dropWhile_cons] at h
    by_cases hp : p a = true
    · rw [if_pos hp] at h; exact ih h
    · rw [if_neg hp] at h
      obtain ⟨h1, _⟩ := List.cons.injEq .. ▸ h
      exact h1 ▸ Bool.eq_false_iff.2 hp

lemma nonNL_eq_false {c : Char} (h : nonNL c = false) : c = '\n' := by
  simpa [nonNL] using h

lemma nonRB_eq_false {c : Char} (h : nonRB c = false) : c = ']' := by
  simpa [nonRB] using h

/-! Decomposition lemmas: what a successful match says about the input. -/

lemma matchTarget_eq_some {s t r : List Char} (h : matchTarget s = some (t, r)) :
    s = t ++ r ∧ t ≠ [] ∧ (∀ c ∈ t, c ≠ '\n') ∧ (r = [] ∨ ∃ r', r = '\n' :: r') := by
  cases s with
  | nil => simp [matchTarget] at h
  | cons c cs =>
    rw [matchTarget] at h
    by_cases hc : c = '\n'
    · rw [if_pos hc] at h; exact absurd h (by simp)
    · rw [if_neg hc] at h
      have h' := Option.some.injEq .. ▸ h
      obtain ⟨ht, hr⟩ := Prod.mk.injEq .. ▸ h'
      refine ⟨?_, ?_, ?_, ?_⟩
      · rw [← ht, ← hr, List.takeWhile_append_dropWhile]
      · rw [← ht, List.takeWhile_cons]
        have : nonNL c = true := by simp [nonNL, hc]
        simp [this]
      · intro d hd
        have := mem_takeWhile (ht ▸ hd)
        simpa [nonNL] using this
      · cases r with
        | nil => exact Or.inl rfl
        | cons x xs =>
          have hx : nonNL x = false := dropWhile_head_false (l := c :: cs) hr
          exact Or.inr ⟨xs, by rw [nonNL_eq_false hx]⟩

lemma matchWsTarget_eq_some : ∀ {s t r : List Char}, matchWsTarget s = some (t, r) →
    (∃ w, s = w ++ t ++ r ∧ ∀ c ∈ w, pySpace c = true) ∧ t ≠ [] ∧
    (∀ c ∈ t, c ≠ '\n') ∧ (r = [] ∨ ∃ r', r = '\n' :: r') := by
  intro s
  induction s with
  | nil => intro t r h; simp [matchWsTarget] at h
  | cons c cs ih =>
    intro t r h
    rw [matchWsTarget] at h
    by_cases hc : pySpace c = true
    · rw [if_pos hc] at h
      cases hw : matchWsTarget cs with
      | some pr =>
        rw [hw] at h
        cases pr with
        | mk t0 r0 =>
          simp only [Option.some.injEq] at h
          obtain ⟨h1, h2⟩ := Prod.mk.injEq .. ▸ h
          subst h1; subst h2
          obtain ⟨⟨w, hsw, hws⟩, ht, htn, hr⟩ := ih hw
          refine ⟨⟨c :: w, by simp [hsw], ?_⟩, ht, htn, hr⟩
          intro d hd
          rcases List.mem_cons.1 hd with h | h
          · exact h ▸ hc
          · exact hws d h
      | none =>
        rw [hw] at h
        obtain ⟨hs, ht, htn, hr⟩ := matchTarget_eq_some h
        exact ⟨⟨[], by simpa using hs, by simp⟩, ht, htn, hr⟩
    · rw [if_neg hc] at h
      obtain ⟨hs, ht, htn, hr⟩ := matchTarget_eq_some h
      exact ⟨⟨[], by simpa using hs, by simp⟩, ht, htn, hr⟩

lemma matchDef_eq_some {s k t r : List Char} (h : matchDef s = some ((k, t), r)) :
    k ≠ [] ∧ (∀ c ∈ k, c ≠ ']') ∧
    (∃ w, s = '[' :: (k ++ ']' :: ':' :: (w ++ t ++ r)) ∧ ∀ c ∈ w, pySpace c = true) ∧
    t ≠ [] ∧ (∀ c ∈ t, c ≠ '\n') ∧ (r = [] ∨ ∃ r', r = '\n' :: r') := by
  cases s with
  | nil => exact absurd h (by simp [matchDef])
  | cons c s1 =>
    rw [matchDef] at h
    by_cases hc : c = '['
    · rw [if_pos hc] at h
      by_cases hk : s1.takeWhile nonRB = []
      · rw [if_pos hk] at h; exact absurd h (by simp)
      · rw [if_neg hk] at h
        cases hdw : s1.dropWhile nonRB with
        | nil => rw [hdw] at h; exact absurd h (by simp)
        | cons b rest1 =>
          cases rest1 with
          | nil => rw [hdw] at h; exact absurd h (by simp)
          | cons d s2 =>
            rw [hdw] at h
            simp only [] at h
            by_cases hbd : b = ']' ∧ d = ':'
            · rw [if_pos hbd] at h
              cases hmw : matchWsTarget s2 with
              | none => rw [hmw] at h; exact absurd h (by simp)
              | some pr =>
                rw [hmw] at h
                cases pr with
                | mk t0 r0 =>
                  simp only [Option.some.injEq, Prod.mk.injEq] at h
                  obtain ⟨⟨hk1, ht0⟩, hr0⟩ := h
                  obtain ⟨⟨w, hsw, hws⟩, ht, htn, hrr⟩ := matchWsTarget_eq_some hmw
                  refine ⟨hk1 ▸ hk, ?_, ⟨w, ?_, hws⟩, ht0 ▸ ht,
                    fun cc hcc => htn cc (ht0 ▸ hcc), hr0 ▸ hrr⟩
                  · intro cc hcc
                    have := mem_takeWhile (hk1 ▸ hcc)
                    simpa [nonRB] using this
                  · have hsplit : s1.takeWhile nonRB ++ s1.dropWhile nonRB = s1 :=
                      List.takeWhile_append_dropWhile ..
                    rw [hc]
                    have hs1 : s1 = k ++ ']' :: ':' :: (w ++ t ++ r) := by
                      rw [← hsplit, hk1, hdw, hbd.1, hbd.2, hsw, ht0, hr0]
                    rw [hs1]
            · rw [if_neg hbd] at h; exact absurd h (by simp)
    · rw [if_neg hc] at h; exact absurd h (by simp)

lemma matchUsage_eq_some {s t f r : List Char} (h : matchUsage s = some (t, f, r)) :
    t ≠ [] ∧ f ≠ [] ∧ (∀ c ∈ t, c ≠ ']') ∧ (∀ c ∈ f, c ≠ ']') ∧
    s = '[' :: (t ++ ']' :: '[' :: (f ++ ']' :: r)) := by
  cases s with
  | nil => exact absurd h (by simp [matchUsage])
  | cons c s1 =>
    rw [matchUsage] at h
    by_cases hc : c = '['
    · rw [if_pos hc] at h
      by_cases hk : s1.takeWhile nonRB = []
      · rw [if_pos hk] at h; exact absurd h (by simp)
      · rw [if_neg hk] at h
        cases hdw : s1.dropWhile nonRB with
        | nil => rw [hdw] at h; exact absurd h (by simp)
        | cons b rest1 =>
          cases rest1 with
          | nil => rw [hdw] at h; exact absurd h (by simp)
          | cons d s2 =>
            rw [hdw] at h
            simp only [] at h
            by_cases hbd : b = ']' ∧ d = '['
            · rw [if_pos hbd] at h
              by_cases hk2 : s2.takeWhile nonRB = []
              · rw [if_pos hk2] at h; exact absurd h (by simp)
              · rw [if_neg hk2] at h
                cases hdw2 : s2.dropWhile nonRB with
                | nil => rw [hdw2] at h; exact absurd h (by simp)
                | cons e rest2 =>
                  rw [hdw2] at h
                  simp only [] at h
                  by_cases he : e = ']'
                  · rw [if_pos he] at h
                    simp only [Option.some.injEq, Prod.mk.injEq] at h
                    obtain ⟨h1, h2, h3⟩ := h
                    refine ⟨h1 ▸ hk, h2 ▸ hk2, ?_, ?_, ?_⟩
                    · intro cc hcc
                      have := mem_takeWhile (h1 ▸ hcc)
                      simpa [nonRB] using this
                    · intro cc hcc
                      have := mem_takeWhile (h2 ▸ hcc)
                      simpa [nonRB] using this
                    · have hs1 : s1.takeWhile nonRB ++ s1.dropWhile nonRB = s1 :=
                        List.takeWhile_append_dropWhile ..
                      have hs2 : s2.takeWhile nonRB ++ s2.dropWhile nonRB = s2 :=
                        List.takeWhile_append_dropWhile ..
                      rw [hc]
                      have h2' : s2 = f ++ ']' :: r := by
                        rw [← hs2, h2, hdw2, he, h3]
                      have h1' : s1 = t ++ ']' :: '[' :: (f ++ ']' :: r) := by
                        rw [← hs1, h1, hdw, hbd.1, hbd.2, ← h2']
                      rw [h1']
                  · rw [if_neg he] at h; exact absurd h (by simp)
            · rw [if_neg hbd] at h; exact absurd h (by simp)
    · rw [if_neg hc] at h; exact absurd h (by simp)

/-! Length bounds: every successful match consumes at least one character. -/

lemma matchDef_length {s k t r : List Char} (h : matchDef s = some ((k, t), r)) :
    r.length < s.length := by
  obtain ⟨hk, -, ⟨w, hs, -⟩, ht, -, -⟩ := matchDef_eq_some h
  subst hs
  simp [List.length_append]
  omega

lemma matchUsage_length {s t f r : List Char} (h : matchUsage s = some (t, f, r)) :
    r.length < s.length := by
  obtain ⟨ht, hf, -, -, hs⟩ := matchUsage_eq_some h
  subst hs
  simp [List.length_append]
  omega

/-! Character-predicate facts. -/

lemma nonRB_of_ne {c : Char} (h : c ≠ ']') : nonRB c = true := by simp [nonRB, h]

lemma nonRB_rb : nonRB ']' = false := by decide

lemma nonNL_of_ne {c : Char} (h : c ≠ '\n') : nonNL c = true := by simp [nonNL, h]

lemma nonNL_nl : nonNL '\n' = false := by decide

lemma pySpace_nl : pySpace '\n' = true := by decide

lemma ne_nl_of_pySpace_false {c : Char} (h : pySpace c = false) : c ≠ '\n' := by
  intro hc; rw [hc] at h; exact absurd h (by decide)

/-! Head-position success lemmas: the matchers applied to an input that
starts with a full match of the corresponding pattern. -/

lemma matchUsage_head {T f post : List Char} (hT : T ≠ []) (hT2 : ∀ c ∈ T, c ≠ ']')
    (hf : f ≠ []) (hf2 : ∀ c ∈ f, c ≠ ']') :
    matchUsage ('[' :: (T ++ ']' :: '[' :: (f ++ ']' :: post))) = some (T, f, post) := by
  have twT : (T ++ ']' :: '[' :: (f ++ ']' :: post)).takeWhile nonRB = T :=
    takeWhile_middle (fun c hc => nonRB_of_ne (hT2 c hc)) nonRB_rb
  have dwT : (T ++ ']' :: '[' :: (f ++ ']' :: post)).dropWhile nonRB =
      ']' :: '[' :: (f ++ ']' :: post) :=
    dropWhile_middle (fun c hc => nonRB_of_ne (hT2 c hc)) nonRB_rb
  have twf : (f ++ ']' :: post).takeWhile nonRB = f :=
    takeWhile_middle (fun c hc => nonRB_of_ne (hf2 c hc)) nonRB_rb
  have dwf : (f ++ ']' :: post).dropWhile nonRB = ']' :: post :=
    dropWhile_middle (fun c hc => nonRB_of_ne (hf2 c hc)) nonRB_rb
  rw [matchUsage, if_pos rfl, twT, dwT, if_neg hT]
  simp only []
  rw [if_pos ⟨trivial, trivial⟩, twf, dwf, if_neg hf]
  simp

lemma matchTarget_head {t post : List Char} (ht : t ≠ []) (htn : ∀ c ∈ t, c ≠ '\n')
    (hp : post = [] ∨ ∃ p', post = '\n' :: p') :
    matchTarget (t ++ post) = some (t, post) := by
  cases t with
  | nil => exact absurd rfl ht
  | cons x xs =>
    have h1 : ((x :: xs) ++ post).takeWhile nonNL = x :: xs := by
      rcases hp with h | ⟨p', h⟩
      · subst h; rw [List.append_nil]
        exact takeWhile_all (fun c hc => nonNL_of_ne (htn c hc))
      · subst h; exact takeWhile_middle (fun c hc => nonNL_of_ne (htn c hc)) nonNL_nl
    have h2 : ((x :: xs) ++ post).dropWhile nonNL = post := by
      rcases hp with h | ⟨p', h⟩
      · subst h; rw [List.append_nil]
        exact dropWhile_all (fun c hc => nonNL_of_ne (htn c hc))
      · subst h; exact dropWhile_middle (fun c hc => nonNL_of_ne (htn c hc)) nonNL_nl
    rw [List.cons_append, matchTarget, if_neg (htn x (by simp)), ← List.cons_append, h1, h2]

lemma matchWsTarget_head {w t post : List Char} (hw : ∀ c ∈ w, pySpace c = true)
    (ht : t ≠ []) (hth : ∀ x xs, t = x :: xs → pySpace x = false)
    (htn : ∀ c ∈ t, c ≠ '\n') (hp : post = [] ∨ ∃ p', post = '\n' :: p') :
    matchWsTarget (w ++ t ++ post) = some (t, post) := by
  induction w with
  | nil =>
    simp only [List.nil_append]
    cases t with
    | nil => exact absurd rfl ht
    | cons x xs =>
      rw [List.cons_append, matchWsTarget,
        if_neg (by rw [hth x xs rfl]; exact Bool.false_ne_true), ← List.cons_append]
      exact matchTarget_head ht htn hp
  | cons c w' ih =>
    rw [List.cons_append, List.cons_append, matchWsTarget, if_pos (hw c (by simp))]
    rw [← List.cons_append, ← List.cons_append] at *
    rw [show (w' ++ t) ++ post = w' ++ t ++ post from rfl,
      ih (fun d hd => hw d (by simp [hd]))]

lemma matchDef_head {k w t post : List Char} (hk : k ≠ []) (hk2 : ∀ c ∈ k, c ≠ ']')
    (hw : ∀ c ∈ w, pySpace c = true) (ht : t ≠ [])
    (hth : ∀ x xs, t = x :: xs → pySpace x = false) (htn : ∀ c ∈ t, c ≠ '\n')
    (hp : post = [] ∨ ∃ p', post = '\n' :: p') :
    matchDef ('[' :: (k ++ ']' :: ':' :: (w ++ t ++ post))) = some ((k, t), post) := by
  have tw : (k ++ ']' :: ':' :: (w ++ t ++ post)).takeWhile nonRB = k :=
    takeWhile_middle (fun c hc => nonRB_of_ne (hk2 c hc)) nonRB_rb
  have dw : (k ++ ']' :: ':' :: (w ++ t ++ post)).dropWhile nonRB =
      ']' :: ':' :: (w ++ t ++ post) :=
    dropWhile_middle (fun c hc => nonRB_of_ne (hk2 c hc)) nonRB_rb
  rw [matchDef, if_pos rfl, tw, dw, if_neg hk]
  simp only []
  rw [if_pos ⟨trivial, trivial⟩, matchWsTarget_head hw ht hth htn hp]

/-! Failure lemmas: positions where the patterns cannot match. -/

lemma matchUsage_ne_head {c : Char} {cs : List Char} (h : c ≠ '[') :
    matchUsage (c :: cs) = none := by
  rw [matchUsage, if_neg h]

lemma matchDef_ne_head {c : Char} {cs : List Char} (h : c ≠ '[') :
    matchDef (c :: cs) = none := by
  rw [matchDef, if_neg h]

lemma takeWhile_nonRB_rb {rest : List Char} : (']' :: rest).takeWhile nonRB = [] := by
  simp [List.takeWhile_cons, nonRB]

lemma matchUsage_empty_text {rest : List Char} : matchUsage ('[' :: ']' :: rest) = none := by
  rw [matchUsage, if_pos rfl, takeWhile_nonRB_rb, if_pos rfl]

lemma matchDef_empty_key {rest : List Char} : matchDef ('[' :: ']' :: rest) = none := by
  rw [matchDef, if_pos rfl, takeWhile_nonRB_rb, if_pos rfl]

lemma matchTarget_none {c : Char} {cs : List Char} (h : matchTarget (c :: cs) = none) :
    c = '\n' := by
  rw [matchTarget] at h
  by_cases hc : c = '\n'
  · exact hc
  · rw [if_neg hc] at h; exact absurd h (by simp)

lemma matchWsTarget_none_of_nl {s : List Char} (h : ∀ c ∈ s, c = '\n') :
    matchWsTarget s = none := by
  induction s with
  | nil => rfl
  | cons c cs ih =>
    have hc : c = '\n' := h c (by simp)
    rw [matchWsTarget, if_pos (by rw [hc]; exact pySpace_nl),
      ih (fun d hd => h d (by simp [hd]))]
    simp only []
    rw [matchTarget, if_pos hc]

lemma nl_of_matchWsTarget_none {s : List Char} (h : matchWsTarget s = none) :
    ∀ c ∈ s, c = '\n' := by
  induction s with
  | nil => simp
  | cons c cs ih =>
    rw [matchWsTarget] at h
    by_cases hsp : pySpace c = true
    · rw [if_pos hsp] at h
      cases hmw : matchWsTarget cs with
      | some pr => rw [hmw] at h; simp only [] at h; exact absurd h (by simp)
      | none =>
        rw [hmw] at h
        simp only [] at h
        have hc : c = '\n' := matchTarget_none h
        intro d hd
        rcases List.mem_cons.1 hd with h' | h'
        · exact h' ▸ hc
        · exact ih hmw d h'
    · rw [if_neg hsp] at h
      have hc : c = '\n' := matchTarget_none h
      exact absurd (hc ▸ pySpace_nl) (by simpa using hsp)

lemma matchDef_none_noRB {s : List Char} (h : ∀ c ∈ s, c ≠ ']') : matchDef s = none := by
  cases s with
  | nil => rfl
  | cons c s1 =>
    by_cases hc : c = '['
    · rw [matchDef, if_pos hc]
      have dw : s1.dropWhile nonRB = [] :=
        dropWhile_all (fun d hd => nonRB_of_ne (h d (by simp [hd])))
      by_cases hk : s1.takeWhile nonRB = []
      · rw [if_pos hk]
      · rw [if_neg hk, dw]
    · exact matchDef_ne_head hc

lemma matchDef_none_brk {a e : List Char} (ha : ∀ c ∈ a, c ≠ ']')
    (he : ∀ x e', e = x :: e' → x ≠ ':') : matchDef (a ++ ']' :: e) = none := by
  cases a with
  | nil => exact matchDef_ne_head (by decide)
  | cons c a' =>
    by_cases hc : c = '['
    · rw [List.cons_append, matchDef, if_pos hc]
      have tw : (a' ++ ']' :: e).takeWhile nonRB = a' :=
        takeWhile_middle (fun d hd => nonRB_of_ne (ha d (by simp [hd]))) nonRB_rb
      have dw : (a' ++ ']' :: e).dropWhile nonRB = ']' :: e :=
        dropWhile_middle (fun d hd => nonRB_of_ne (ha d (by simp [hd]))) nonRB_rb
      by_cases hk : a' = []
      · rw [tw, if_pos hk]
      · rw [tw, dw, if_neg hk]
        cases e with
        | nil => simp only []
        | cons d e' =>
          simp only []
          rw [if_neg (fun hbd => he d e' rfl hbd.2)]
    · rw [List.cons_append]; exact matchDef_ne_head hc

lemma matchDef_none_ws {a s2 : List Char} (ha : ∀ c ∈ a, c ≠ ']')
    (h2 : ∀ c ∈ s2, c = '\n') : matchDef (a ++ ']' :: ':' :: s2) = none := by
  cases a with
  | nil => exact matchDef_ne_head (by decide)
  | cons c a' =>
    by_cases hc : c = '['
    · rw [List.cons_append, matchDef, if_pos hc]
      have tw : (a' ++ ']' :: ':' :: s2).takeWhile nonRB = a' :=
        takeWhile_middle (fun d hd => nonRB_of_ne (ha d (by simp [hd]))) nonRB_rb
      have dw : (a' ++ ']' :: ':' :: s2).dropWhile nonRB = ']' :: ':' :: s2 :=
        dropWhile_middle (fun d hd => nonRB_of_ne (ha d (by simp [hd]))) nonRB_rb
      by_cases hk : a' = []
      · rw [tw, if_pos hk]
      · rw [tw, dw, if_neg hk]
        simp only []
        rw [if_pos ⟨trivial, trivial⟩, matchWsTarget_none_of_nl h2]
    · rw [List.cons_append]; exact matchDef_ne_head hc

/-! The reference table: `dict(re.findall(...))` and its lookup. -/

/-- Association-list lookup (Python `refs[key]` with `key in refs`). -/
def lookup : List (List Char × List Char) → List Char → Option (List Char)
  | [], _ => none
  | p :: m, k => if p.1 = k then some p.2 else lookup m k

/-- One step of building a Python `dict` from a sequence of pairs: an
existing key keeps its position but its value is overwritten. -/
def dictInsert : List (List Char × List Char) → List Char × List Char →
    List (List Char × List Char)
  | [], p => [p]
  | q :: m, p => if q.1 = p.1 then (q.1, p.2) :: m else q :: dictInsert m p

/-- `dict(pairs)`: left-to-right insertion, later duplicates overwrite. -/
def dictOf (ps : List (List Char × List Char)) : List (List Char × List Char) :=
  ps.foldl dictInsert []

/-- `replace_link` from the source: an inline link `[text](url)` when the
reference key resolves, and `match.group(0)` (the matched text, unchanged)
otherwise. -/
def replace_link (refs : List (List Char × List Char)) (text ref : List Char) : List Char :=
  match lookup refs ref with
  | some url => '[' :: (text ++ ']' :: '(' :: (url ++ [')']))
  | none => '[' :: (text ++ ']' :: '[' :: (ref ++ [']']))

/-! The three scans.  Each takes fuel (the length of the input suffices:
every step consumes at least one character) so that everything computes by
definitional reduction; fuel-irrelevance is proved for each. -/

/-- Fuelled scan of `re.findall` for the definition pattern in MULTILINE
mode; `b` records whether the current position is at a line start. -/
def findDefsF : Nat → Bool → List Char → List (List Char × List Char)
  | 0, _, _ => []
  | _ + 1, _, [] => []
  | n + 1, b, c :: cs =>
    if b then
      match matchDef (c :: cs) with
      | some (kv, rest) => kv :: findDefsF n false rest
      | none => findDefsF n (isNL c) cs
    else findDefsF n (isNL c) cs

/-- `re.findall(r"^\[([^\]]+)\]:\s*(.+)$", s, re.MULTILINE)` (as the list
of captured `(key, target)` pairs), started with flag `b` (`true` at
position 0 of a document). -/
def findDefs (b : Bool) (s : List Char) : List (List Char × List Char) :=
  findDefsF s.length b s

lemma findDefsF_nil : ∀ (n : Nat) (b : Bool), findDefsF n b [] = []
  | 0, _ => rfl
  | _ + 1, _ => rfl

lemma findDefsF_congr : ∀ {n m : Nat} {b : Bool} {s : List Char},
    s.length ≤ n → s.length ≤ m → findDefsF n b s = findDefsF m b s := by
  intro n
  induction n with
  | zero =>
    intro m b s hn _
    have hs : s = [] := List.eq_nil_of_length_eq_zero (Nat.le_zero.1 hn)
    subst hs; rw [findDefsF_nil, findDefsF_nil]
  | succ n ih =>
    intro m b s hn hm
    cases s with
    | nil => rw [findDefsF_nil, findDefsF_nil]
    | cons c cs =>
      cases m with
      | zero => exact absurd hm (by simp)
      | succ m =>
        simp only [findDefsF]
        have hcs : cs.length ≤ n := by simpa using hn
        have hcs' : cs.length ≤ m := by simpa using hm
        cases b with
        | false => exact ih hcs hcs'
        | true =>
          simp only [if_pos trivial]
          cases hmd : matchDef (c :: cs) with
          | none => exact ih hcs hcs'
          | some pr =>
            obtain ⟨⟨k, t⟩, rest⟩ := pr
            have hr : rest.length < cs.length + 1 := matchDef_length hmd
            exact congrArg _ (ih (by omega) (by omega))

lemma findDefs_false_cons {c : Char} {cs : List Char} :
    findDefs false (c :: cs) = findDefs (isNL c) cs := rfl

lemma findDefs_match {c : Char} {cs : List Char} {kv : List Char × List Char}
    {rest : List Char} (h : matchDef (c :: cs) = some (kv, rest)) :
    findDefs true (c :: cs) = kv :: findDefs false rest := by
  show findDefsF (cs.length + 1) true (c :: cs) = _
  simp only [findDefsF, if_pos trivial, h]
  obtain ⟨k, t⟩ := kv
  have hr : rest.length < cs.length + 1 := matchDef_length h
  exact congrArg _ (findDefsF_congr (by omega) (le_refl _))

lemma findDefs_nomatch {c : Char} {cs : List Char} (h : matchDef (c :: cs) = none) :
    findDefs true (c :: cs) = findDefs (isNL c) cs := by
  show findDefsF (cs.length + 1) true (c :: cs) = _
  simp only [findDefsF, if_pos trivial, h]
  rfl

/-- Fuelled scan of the usage-rewriting `re.sub`. -/
def subUsagesF (refs : List (List Char × List Char)) : Nat → List Char → List Char
  | 0, _ => []
  | _ + 1, [] => []
  | n + 1, c :: cs =>
    match matchUsage (c :: cs) with
    | some (t, ref, rest) => replace_link refs t ref ++ subUsagesF refs n rest
    | none => c :: subUsagesF refs n cs

/-- `re.sub(r"\[([^\]]+)\]\[([^\]]+)\]", replace_link, s)`. -/
def subUsages (refs : List (List Char × List Char)) (s : List Char) : List Char :=
  subUsagesF refs s.length s

lemma subUsagesF_nil : ∀ (refs) (n : Nat), subUsagesF refs n [] = []
  | _, 0 => rfl
  | _, _ + 1 => rfl

lemma subUsagesF_congr : ∀ {n m : Nat} {refs} {s : List Char},
    s.length ≤ n → s.length ≤ m → subUsagesF refs n s = subUsagesF refs m s := by
  intro n
  induction n with
  | zero =>
    intro m refs s hn _
    have hs : s = [] := List.eq_nil_of_length_eq_zero (Nat.le_zero.1 hn)
    subst hs; rw [subUsagesF_nil, subUsagesF_nil]
  | succ n ih =>
    intro m refs s hn hm
    cases s with
    | nil => rw [subUsagesF_nil, subUsagesF_nil]
    | cons c cs =>
      cases m with
      | zero => exact absurd hm (by simp)
      | succ m =>
        simp only [subUsagesF]
        have hcs : cs.length ≤ n := by simpa using hn
        have hcs' : cs.length ≤ m := by simpa using hm
        cases hmu : matchUsage (c :: cs) with
        | none => exact congrArg _ (ih hcs hcs')
        | some pr =>
          obtain ⟨t, ref, rest⟩ := pr
          have hr : rest.length < cs.length + 1 := matchUsage_length hmu
          exact congrArg _ (ih (by omega) (by omega))

lemma subUsages_match {refs : List (List Char × List Char)} {c : Char} {cs t ref rest : List Char}
    (h : matchUsage (c :: cs) = some (t, ref, rest)) :
    subUsages refs (c :: cs) = replace_link refs t ref ++ subUsages refs rest := by
  show subUsagesF refs (cs.length + 1) (c :: cs) = _
  simp only [subUsagesF, h]
  have hr : rest.length < cs.length + 1 := matchUsage_length h
  exact congrArg _ (subUsagesF_congr (by omega) (le_refl _))

lemma subUsages_nomatch {refs : List (List Char × List Char)} {c : Char} {cs : List Char}
    (h : matchUsage (c :: cs) = none) :
    subUsages refs (c :: cs) = c :: subUsages refs cs := by
  show subUsagesF refs (cs.length + 1) (c :: cs) = _
  simp only [subUsagesF, h]
  rfl

/-- Fuelled scan of the definition-stripping `re.sub` (replacement is the
empty string); `b` is the line-start flag for the `^` anchor. -/
def stripDefsF : Nat → Bool → List Char → List Char
  | 0, _, _ => []
  | _ + 1, _, [] => []
  | n + 1, b, c :: cs =>
    if b then
      match matchDef (c :: cs) with
      | some (_, rest) => stripDefsF n false rest
      | none => c :: stripDefsF n (isNL c) cs
    else c :: stripDefsF n (isNL c) cs

/-- `re.sub(r"^\[([^\]]+)\]:\s*(.+)$", "", s, flags=re.MULTILINE)`, started
with flag `b`. -/
def stripDefs (b : Bool) (s : List Char) : List Char :=
  stripDefsF s.length b s

lemma stripDefsF_nil : ∀ (n : Nat) (b : Bool), stripDefsF n b [] = []
  | 0, _ => rfl
  | _ + 1, _ => rfl

lemma stripDefsF_congr : ∀ {n m : Nat} {b : Bool} {s : List Char},
    s.length ≤ n → s.length ≤ m → stripDefsF n b s = stripDefsF m b s := by
  intro n
  induction n with
  | zero =>
    intro m b s hn _
    have hs : s = [] := List.eq_nil_of_length_eq_zero (Nat.le_zero.1 hn)
    subst hs; rw [stripDefsF_nil, stripDefsF_nil]
  | succ n ih =>
    intro m b s hn hm
    cases s with
    | nil => rw [stripDefsF_nil, stripDefsF_nil]
    | cons c cs =>
      cases m with
      | zero => exact absurd hm (by simp)
      | succ m =>
        simp only [stripDefsF]
        have hcs : cs.length ≤ n := by simpa using hn
        have hcs' : cs.length ≤ m := by simpa using hm
        cases b with
        | false =>
          show c :: stripDefsF n (isNL c) cs = c :: stripDefsF m (isNL c) cs
          exact congrArg _ (ih hcs hcs')
        | true =>
          simp only [if_pos trivial]
          cases hmd : matchDef (c :: cs) with
          | none =>
            show c :: stripDefsF n (isNL c) cs = c :: stripDefsF m (isNL c) cs
            exact congrArg _ (ih hcs hcs')
          | some pr =>
            obtain ⟨⟨k, t⟩, rest⟩ := pr
            have hr : rest.length < cs.length + 1 := matchDef_length hmd
            exact ih (by omega) (by omega)

lemma stripDefs_false_cons {c : Char} {cs : List Char} :
    stripDefs false (c :: cs) = c :: stripDefs (isNL c) cs := rfl

lemma stripDefs_match {c : Char} {cs : List Char} {kv : List Char × List Char}
    {rest : List Char} (h : matchDef (c :: cs) = some (kv, rest)) :
    stripDefs true (c :: cs) = stripDefs false rest := by
  show stripDefsF (cs.length + 1) true (c :: cs) = _
  simp only [stripDefsF, if_pos trivial, h]
  obtain ⟨k, t⟩ := kv
  have hr : rest.length < cs.length + 1 := matchDef_length h
  exact stripDefsF_congr (by omega) (le_refl _)

lemma stripDefs_nomatch {c : Char} {cs : List Char} (h : matchDef (c :: cs) = none) :
    stripDefs true (c :: cs) = c :: stripDefs (isNL c) cs := by
  show stripDefsF (cs.length + 1) true (c :: cs) = _
  simp only [stripDefsF, if_pos trivial, h]
  rfl

/-! The remaining pieces of `process_file` and the top-level transform. -/

/-- Python `str.strip()`: remove leading and trailing whitespace. -/
def trim (s : List Char) : List Char :=
  ((s.dropWhile pySpace).reverse.dropWhile pySpace).reverse

/-- `reference_links` of the source: the `findall` result collected into a
`dict`. -/
def reference_links (content : List Char) : List (List Char × List Char) :=
  dictOf (findDefs true content)

/-- The pure core of `process_file`: build the reference table; if it is
empty, return the document untouched with the `false` flag (the source
prints `"No reference links found to convert."` and returns early, leaving
the output file a plain copy of the input); otherwise rewrite the usages,
strip the definition lines, trim, and return with the `true` flag.  File
validation, duplication, writing and logging are I/O glue outside this
model. -/
def process_file (content : List Char) : List Char × Bool :=
  if reference_links content = [] then (content, false)
  else (trim (stripDefs true (subUsages (reference_links content) content)), true)

/-- `noDefs b s`: no line-start position of `s` (with `b` telling whether
position 0 is one) matches the definition pattern, i.e. no line of `s`
matches `^\[([^\]]+)\]:\s*(.+)$`. -/
def noDefs : Bool → List Char → Bool
  | _, [] => true
  | b, c :: cs => (if b then (matchDef (c :: cs)).isNone else true) && noDefs (isNL c) cs

/-- `prefixEq pat s`: `pat` is an initial segment of `s`. -/
def prefixEq : List Char → List Char → Bool
  | [], _ => true
  | _ :: _, [] => false
  | a :: as, b :: bs => decide (a = b) && prefixEq as bs

/-- `occursIn pat s`: `pat` occurs contiguously somewhere in `s`. -/
def occursIn (pat : List Char) : List Char → Bool
  | [] => prefixEq pat []
  | c :: cs => prefixEq pat (c :: cs) || occursIn pat cs

/-! Step equations for `noDefs`. -/

lemma noDefs_false_cons {c : Char} {cs : List Char} :
    noDefs false (c :: cs) = noDefs (isNL c) cs := by
  simp [noDefs]

lemma noDefs_true_cons {c : Char} {cs : List Char} :
    noDefs true (c :: cs) = ((matchDef (c :: cs)).isNone && noDefs (isNL c) cs) := by
  simp [noDefs]

/-! Identity and copying lemmas for the stripping scan: regions in which no
line start can match the definition pattern pass through unchanged. -/

lemma stripDefs_id_noRB {s : List Char} (h : ∀ c ∈ s, c ≠ ']') :
    ∀ b, stripDefs b s = s := by
  induction s with
  | nil => intro b; rfl
  | cons c cs ih =>
    intro b
    have htail : ∀ d ∈ cs, d ≠ ']' := fun d hd => h d (by simp [hd])
    cases b with
    | false => rw [stripDefs_false_cons, ih htail]
    | true =>
      rw [stripDefs_nomatch (matchDef_none_noRB h), ih htail]

lemma stripDefs_id_nl {s : List Char} (h : ∀ c ∈ s, c = '\n') :
    ∀ b, stripDefs b s = s := by
  induction s with
  | nil => intro b; rfl
  | cons c cs ih =>
    intro b
    have hc : c = '\n' := h c (by simp)
    have htail : ∀ d ∈ cs, d = '\n' := fun d hd => h d (by simp [hd])
    cases b with
    | false => rw [stripDefs_false_cons, ih htail]
    | true =>
      rw [stripDefs_nomatch (matchDef_ne_head (by rw [hc]; decide)), ih htail]

lemma stripDefs_copy_brk {k e : List Char} (hk : ∀ c ∈ k, c ≠ ']')
    (he : ∀ x e', e = x :: e' → x ≠ ':') :
    ∀ b, stripDefs b (k ++ ']' :: e) = k ++ ']' :: stripDefs false e := by
  induction k with
  | nil =>
    intro b
    simp only [List.nil_append]
    have hstep : stripDefs b (']' :: e) = ']' :: stripDefs (isNL ']') e := by
      cases b with
      | false => exact stripDefs_false_cons
      | true => exact stripDefs_nomatch (matchDef_ne_head (by decide))
    rw [hstep, show isNL ']' = false from rfl]
  | cons c k' ih =>
    intro b
    have htail : ∀ d ∈ k', d ≠ ']' := fun d hd => hk d (by simp [hd])
    rw [List.cons_append]
    have hstep : stripDefs b (c :: (k' ++ ']' :: e)) =
        c :: stripDefs (isNL c) (k' ++ ']' :: e) := by
      cases b with
      | false => exact stripDefs_false_cons
      | true =>
        refine stripDefs_nomatch ?_
        have := matchDef_none_brk (a := c :: k')
          (fun d hd => hk d hd) he
        rwa [List.cons_append] at this
    rw [hstep, ih htail]
    rfl

lemma stripDefs_copy_ws {k s2 : List Char} (hk : ∀ c ∈ k, c ≠ ']')
    (h2 : ∀ c ∈ s2, c = '\n') :
    ∀ b, stripDefs b (k ++ ']' :: ':' :: s2) = k ++ ']' :: ':' :: s2 := by
  induction k with
  | nil =>
    intro b
    simp only [List.nil_append]
    have hstep : stripDefs b (']' :: ':' :: s2) = ']' :: stripDefs (isNL ']') (':' :: s2) := by
      cases b with
      | false => exact stripDefs_false_cons
      | true => exact stripDefs_nomatch (matchDef_ne_head (by decide))
    rw [hstep, show isNL ']' = false from rfl, stripDefs_false_cons,
      show isNL ':' = false from rfl, stripDefs_id_nl h2 false]
  | cons c k' ih =>
    intro b
    have htail : ∀ d ∈ k', d ≠ ']' := fun d hd => hk d (by simp [hd])
    rw [List.cons_append]
    have hstep : stripDefs b (c :: (k' ++ ']' :: ':' :: s2)) =
        c :: stripDefs (isNL c) (k' ++ ']' :: ':' :: s2) := by
      cases b with
      | false => exact stripDefs_false_cons
      | true =>
        refine stripDefs_nomatch ?_
        have := matchDef_none_ws (a := c :: k') (fun d hd => hk d hd) h2
        rwa [List.cons_append] at this
    rw [hstep, ih htail]

/-- Key preservation fact: if the definition pattern fails at a position,
deleting later matches of the very same pattern cannot make it succeed
there. -/
lemma matchDef_none_stripDefs {s : List Char} (h : matchDef s = none) :
    matchDef (stripDefs true s) = none := by
  cases s with
  | nil => rfl
  | cons c cs =>
    by_cases hc : c = '['
    · subst hc
      rw [stripDefs_nomatch h, show isNL '[' = false from rfl]
      cases htk : cs.takeWhile nonRB with
      | nil =>
        cases cs with
        | nil => decide
        | cons x cs' =>
          have hx : x = ']' := by
            rw [List.takeWhile_cons] at htk
            by_cases hnx : nonRB x = true
            · rw [if_pos hnx] at htk; exact absurd htk (by simp)
            · exact nonRB_eq_false (by simpa using hnx)
          subst hx
          rw [stripDefs_false_cons]
          exact matchDef_empty_key
      | cons k0 k' =>
        have hkne : ∀ d ∈ (k0 :: k'), d ≠ ']' := fun d hd => by
          have := mem_takeWhile (htk ▸ hd); simpa [nonRB] using this
        have hcs : cs = (k0 :: k') ++ cs.dropWhile nonRB := by
          conv_lhs => rw [← List.takeWhile_append_dropWhile (p := nonRB) (l := cs)]
          rw [htk]
        cases hdw : cs.dropWhile nonRB with
        | nil =>
          rw [hdw, List.append_nil] at hcs
          rw [hcs, stripDefs_id_noRB hkne false]
          refine matchDef_none_noRB ?_
          intro d hd
          rcases List.mem_cons.1 hd with h' | h'
          · rw [h']; decide
          · exact hkne d h'
        | cons b1 e =>
          have hb1 : b1 = ']' := nonRB_eq_false (dropWhile_head_false hdw)
          subst hb1
          rw [hdw] at hcs
          rcases e with _ | ⟨x, e'⟩
          · have hee : ∀ (x : Char) (e' : List Char), ([] : List Char) = x :: e' → x ≠ ':' := by
              intro x e' hxe; cases hxe
            rw [hcs, stripDefs_copy_brk hkne hee false,
              show stripDefs false ([] : List Char) = [] from rfl]
            have := matchDef_none_brk (a := '[' :: (k0 :: k')) (e := ([] : List Char))
              (by intro d hd
                  rcases List.mem_cons.1 hd with h' | h'
                  · rw [h']; decide
                  · exact hkne d h') hee
            rwa [List.cons_append] at this
          · by_cases hx : x = ':'
            · subst hx
              have hmw : matchWsTarget e' = none := by
                rw [matchDef, if_pos rfl, htk] at h
                rw [if_neg (by simp)] at h
                rw [hdw] at h
                simp only [] at h
                rw [if_pos ⟨trivial, trivial⟩] at h
                cases hmw' : matchWsTarget e' with
                | none => rfl
                | some pr =>
                  obtain ⟨t, rest⟩ := pr
                  rw [hmw'] at h
                  simp only [] at h
                  exact absurd h (by simp)
              rw [hcs, stripDefs_copy_ws hkne (nl_of_matchWsTarget_none hmw) false, ← hcs]
              exact h
            · have hee : ∀ (y : Char) (e'' : List Char), x :: e' = y :: e'' → y ≠ ':' := by
                intro y e'' hy hcol
                injection hy with h1 _
                exact hx (h1.trans hcol)
              rw [hcs, stripDefs_copy_brk hkne hee false, stripDefs_false_cons]
              have := matchDef_none_brk (a := '[' :: (k0 :: k'))
                (e := x :: stripDefs (isNL x) e')
                (by intro d hd
                    rcases List.mem_cons.1 hd with h' | h'
                    · rw [h']; decide
                    · exact hkne d h')
                (by intro y e'' hy hcol
                    injection hy with h1 _
                    exact hx (h1.trans hcol))
              rwa [List.cons_append] at this
    · rw [stripDefs_nomatch h]
      exact matchDef_ne_head hc

/-- After the stripping pass no line-start position matches the definition
pattern any more. -/
lemma noDefs_stripDefs : ∀ (n : Nat) (s : List Char), s.length ≤ n →
    ∀ b, noDefs b (stripDefs b s) = true := by
  intro n
  induction n with
  | zero =>
    intro s hs b
    have h : s = [] := List.eq_nil_of_length_eq_zero (Nat.le_zero.1 hs)
    subst h; rfl
  | succ n ih =>
    intro s hs b
    cases s with
    | nil => rfl
    | cons c cs =>
      cases b with
      | false =>
        rw [stripDefs_false_cons, noDefs_false_cons]
        exact ih cs (by simpa using hs) (isNL c)
      | true =>
        cases hmd : matchDef (c :: cs) with
        | some pr =>
          obtain ⟨⟨k, t⟩, rest⟩ := pr
          rw [stripDefs_match hmd]
          obtain ⟨-, -, -, -, -, hr⟩ := matchDef_eq_some hmd
          have hlen : rest.length < cs.length + 1 := matchDef_length hmd
          rcases hr with hr | ⟨r', hr⟩
          · subst hr; rfl
          · subst hr
            rw [stripDefs_false_cons, noDefs_true_cons,
              matchDef_ne_head (c := '\n') (by decide),
              show isNL '\n' = true from rfl]
            have h2 := ih r' (by simp at hlen hs; omega) true
            simp [h2]
        | none =>
          rw [stripDefs_nomatch hmd, noDefs_true_cons]
          have h1 : matchDef (c :: stripDefs (isNL c) cs) = none := by
            have := matchDef_none_stripDefs hmd
            rwa [stripDefs_nomatch hmd] at this
          rw [h1]
          have h2 := ih cs (by simpa using hs) (isNL c)
          simp [h2]

/-! `findDefs` finds nothing exactly when no line matches the pattern. -/

lemma findDefs_nil_of_noDefs : ∀ {s : List Char} {b : Bool},
    noDefs b s = true → findDefs b s = [] := by
  intro s
  induction s with
  | nil => intro b _; rfl
  | cons c cs ih =>
    intro b h
    cases b with
    | false =>
      rw [noDefs_false_cons] at h
      rw [findDefs_false_cons]
      exact ih h
    | true =>
      rw [noDefs_true_cons, Bool.and_eq_true] at h
      have hmd : matchDef (c :: cs) = none := Option.isNone_iff_eq_none.1 h.1
      rw [findDefs_nomatch hmd]
      exact ih h.2

lemma noDefs_of_findDefs_nil : ∀ {s : List Char} {b : Bool},
    findDefs b s = [] → noDefs b s = true := by
  intro s
  induction s with
  | nil => intro b _; rfl
  | cons c cs ih =>
    intro b h
    cases b with
    | false =>
      rw [findDefs_false_cons] at h
      rw [noDefs_false_cons]
      exact ih h
    | true =>
      cases hmd : matchDef (c :: cs) with
      | some pr =>
        obtain ⟨kv, rest⟩ := pr
        rw [findDefs_match hmd] at h
        exact absurd h (by simp)
      | none =>
        rw [findDefs_nomatch hmd] at h
        rw [noDefs_true_cons, hmd]
        simpa using ih h

/-! The `dict` of collected pairs is empty exactly when `findall` found
nothing, and the two branches of `process_file`. -/

lemma dictInsert_ne_nil {m : List (List Char × List Char)} {p : List Char × List Char} :
    dictInsert m p ≠ [] := by
  cases m with
  | nil => simp [dictInsert]
  | cons q m =>
    rw [dictInsert]
    by_cases hq : q.1 = p.1
    · rw [if_pos hq]; simp
    · rw [if_neg hq]; simp

lemma foldl_dictInsert_ne_nil : ∀ (ps : List (List Char × List Char))
    (m : List (List Char × List Char)), m ≠ [] → ps.foldl dictInsert m ≠ [] := by
  intro ps
  induction ps with
  | nil => intro m hm; simpa using hm
  | cons p ps ih =>
    intro m _
    rw [List.foldl_cons]
    exact ih (dictInsert m p) dictInsert_ne_nil

lemma reference_links_eq_nil_iff {content : List Char} :
    reference_links content = [] ↔ findDefs true content = [] := by
  constructor
  · intro h
    cases hf : findDefs true content with
    | nil => rfl
    | cons p ps =>
      rw [reference_links, dictOf, hf, List.foldl_cons] at h
      exact absurd h (foldl_dictInsert_ne_nil ps (dictInsert [] p) dictInsert_ne_nil)
  · intro h
    rw [reference_links, h]
    rfl

lemma process_file_no_defs {d : List Char} (h : findDefs true d = []) :
    process_file d = (d, false) := by
  rw [process_file, if_pos (reference_links_eq_nil_iff.2 h)]

lemma process_file_defs {d : List Char} (h : findDefs true d ≠ []) :
    process_file d = (trim (stripDefs true (subUsages (reference_links d) d)), true) := by
  rw [process_file, if_neg (fun hh => h (reference_links_eq_nil_iff.1 hh))]

/-! Copy/skip lemmas for the two substitution scans and `findDefs`. -/

lemma subUsages_copy {refs : List (List Char × List Char)} {pre rest : List Char}
    (h : ∀ c ∈ pre, c ≠ '[') :
    subUsages refs (pre ++ rest) = pre ++ subUsages refs rest := by
  induction pre with
  | nil => rfl
  | cons c pre' ih =>
    rw [List.cons_append, subUsages_nomatch (matchUsage_ne_head (h c (by simp))),
      ih (fun d hd => h d (by simp [hd])), List.cons_append]

lemma findDefs_skip {seg rest : List Char} (h : ∀ c ∈ seg, c ≠ '\n') :
    findDefs false (seg ++ rest) = findDefs false rest := by
  induction seg with
  | nil => rfl
  | cons c seg' ih =>
    rw [List.cons_append, findDefs_false_cons,
      show isNL c = false from by simp [isNL, h c (by simp)],
      ih (fun d hd => h d (by simp [hd]))]

lemma stripDefs_copy_noNL {seg rest : List Char} (h : ∀ c ∈ seg, c ≠ '\n') :
    stripDefs false (seg ++ rest) = seg ++ stripDefs false rest := by
  induction seg with
  | nil => rfl
  | cons c seg' ih =>
    rw [List.cons_append, stripDefs_false_cons,
      show isNL c = false from by simp [isNL, h c (by simp)],
      ih (fun d hd => h d (by simp [hd])), List.cons_append]

lemma stripDefs_id_noDefs : ∀ {s : List Char} {b : Bool},
    noDefs b s = true → stripDefs b s = s := by
  intro s
  induction s with
  | nil => intro b _; rfl
  | cons c cs ih =>
    intro b h
    cases b with
    | false =>
      rw [noDefs_false_cons] at h
      rw [stripDefs_false_cons, ih h]
    | true =>
      rw [noDefs_true_cons, Bool.and_eq_true] at h
      have hmd : matchDef (c :: cs) = none := Option.isNone_iff_eq_none.1 h.1
      rw [stripDefs_nomatch hmd, ih h.2]

/-! Substring occurrence. -/

lemma prefixEq_append_self : ∀ (pat x : List Char), prefixEq pat (pat ++ x) = true := by
  intro pat
  induction pat with
  | nil => intro x; rfl
  | cons a pat' ih =>
    intro x
    rw [List.cons_append, prefixEq]
    simp [ih x]

lemma occursIn_of_append : ∀ (a : List Char) (pat b : List Char),
    occursIn pat (a ++ pat ++ b) = true := by
  intro a
  induction a with
  | nil =>
    intro pat b
    cases hp : pat ++ b with
    | nil =>
      have hpn : pat = [] := by
        cases pat with
        | nil => rfl
        | cons x xs => simp at hp
      subst hpn
      have hbn : b = [] := by simpa using hp
      subst hbn; rfl
    | cons c cs =>
      rw [List.nil_append, hp, occursIn, ← hp, prefixEq_append_self]
      rfl
  | cons c a' ih =>
    intro pat b
    rw [List.cons_append, List.cons_append, occursIn, ih pat b, Bool.or_true]

/-! Python `dict` semantics: the last duplicate wins. -/

/-- The value of the last pair of `ps` carrying key `k`, if any: the value
a Python `dict` built from `ps` associates to `k`. -/
def lastDef (ps : List (List Char × List Char)) (k : List Char) : Option (List Char) :=
  ps.foldl (fun acc p => if p.1 = k then some p.2 else acc) none

lemma lookup_dictInsert {m : List (List Char × List Char)} {p : List Char × List Char}
    {k : List Char} :
    lookup (dictInsert m p) k = if p.1 = k then some p.2 else lookup m k := by
  induction m with
  | nil => simp [dictInsert, lookup]
  | cons q m ih =>
    rw [dictInsert]
    by_cases hq : q.1 = p.1
    · rw [if_pos hq, lookup]
      by_cases hk : p.1 = k
      · rw [if_pos (hq.trans hk), if_pos hk]
      · rw [if_neg (fun hh => hk (hq ▸ hh)), if_neg hk, lookup,
          if_neg (fun hh => hk (hq ▸ hh))]
    · rw [if_neg hq, lookup, ih]
      by_cases hk2 : q.1 = k
      · rw [if_pos hk2, if_neg (fun hh => hq (hk2.trans hh.symm)), lookup, if_pos hk2]
      · rw [if_neg hk2]
        by_cases hk : p.1 = k
        · rw [if_pos hk, if_pos hk]
        · rw [if_neg hk, if_neg hk, lookup, if_neg hk2]

lemma lookup_foldl_dictInsert : ∀ (ps : List (List Char × List Char))
    (m : List (List Char × List Char)) (k : List Char),
    lookup (ps.foldl dictInsert m) k =
      ps.foldl (fun acc p => if p.1 = k then some p.2 else acc) (lookup m k) := by
  intro ps
  induction ps with
  | nil => intro m k; rfl
  | cons p ps ih =>
    intro m k
    rw [List.foldl_cons, List.foldl_cons, ih, lookup_dictInsert]

/-- Python `dict(pairs)[k]`: the value of the last pair with key `k`. -/
lemma lookup_dictOf {ps : List (List Char × List Char)} {k : List Char} :
    lookup (dictOf ps) k = lastDef ps k := by
  rw [dictOf, lastDef, lookup_foldl_dictInsert]
  rfl

/-! The trace of the usage-rewriting scan: the input split into kept
one-character runs and matched `[text][ref]` segments.  Joining the
original segments restores the input; joining their images is exactly the
substitution's output — so the scan rewrites nothing outside its
matches. -/

def usageSplitF : Nat → List Char → List ((List Char) ⊕ (List Char × List Char))
  | 0, _ => []
  | _ + 1, [] => []
  | n + 1, c :: cs =>
    match matchUsage (c :: cs) with
    | some (t, ref, rest) => Sum.inr (t, ref) :: usageSplitF n rest
    | none => Sum.inl [c] :: usageSplitF n cs

def usageSplit (s : List Char) : List ((List Char) ⊕ (List Char × List Char)) :=
  usageSplitF s.length s

lemma usageSplitF_nil : ∀ (n : Nat), usageSplitF n [] = []
  | 0 => rfl
  | _ + 1 => rfl

lemma usageSplitF_congr : ∀ {n m : Nat} {s : List Char},
    s.length ≤ n → s.length ≤ m → usageSplitF n s = usageSplitF m s := by
  intro n
  induction n with
  | zero =>
    intro m s hn _
    have hs : s = [] := List.eq_nil_of_length_eq_zero (Nat.le_zero.1 hn)
    subst hs; rw [usageSplitF_nil, usageSplitF_nil]
  | succ n ih =>
    intro m s hn hm
    cases s with
    | nil => rw [usageSplitF_nil, usageSplitF_nil]
    | cons c cs =>
      cases m with
      | zero => exact absurd hm (by simp)
      | succ m =>
        simp only [usageSplitF]
        have hcs : cs.length ≤ n := by simpa using hn
        have hcs' : cs.length ≤ m := by simpa using hm
        cases hmu : matchUsage (c :: cs) with
        | none => exact congrArg _ (ih hcs hcs')
        | some pr =>
          obtain ⟨t, ref, rest⟩ := pr
          have hr : rest.length < cs.length + 1 := matchUsage_length hmu
          exact congrArg _ (ih (by omega) (by omega))

lemma usageSplit_match {c : Char} {cs t ref rest : List Char}
    (h : matchUsage (c :: cs) = some (t, ref, rest)) :
    usageSplit (c :: cs) = Sum.inr (t, ref) :: usageSplit rest := by
  show usageSplitF (cs.length + 1) (c :: cs) = _
  simp only [usageSplitF, h]
  have hr : rest.length < cs.length + 1 := matchUsage_length h
  exact congrArg _ (usageSplitF_congr (by omega) (le_refl _))

lemma usageSplit_nomatch {c : Char} {cs : List Char} (h : matchUsage (c :: cs) = none) :
    usageSplit (c :: cs) = Sum.inl [c] :: usageSplit cs := by
  show usageSplitF (cs.length + 1) (c :: cs) = _
  simp only [usageSplitF, h]
  rfl

/-- Concatenation of the original text of each segment. -/
def joinOrig : List ((List Char) ⊕ (List Char × List Char)) → List Char
  | [] => []
  | Sum.inl cs :: xs => cs ++ joinOrig xs
  | Sum.inr (t, ref) :: xs => '[' :: (t ++ ']' :: '[' :: (ref ++ ']' :: joinOrig xs))

/-- Concatenation with each matched segment replaced by `replace_link`. -/
def joinImage (refs : List (List Char × List Char)) :
    List ((List Char) ⊕ (List Char × List Char)) → List Char
  | [] => []
  | Sum.inl cs :: xs => cs ++ joinImage refs xs
  | Sum.inr (t, ref) :: xs => replace_link refs t ref ++ joinImage refs xs

lemma joinOrig_usageSplit : ∀ (n : Nat) (s : List Char), s.length ≤ n →
    joinOrig (usageSplit s) = s := by
  intro n
  induction n with
  | zero =>
    intro s hs
    have h : s = [] := List.eq_nil_of_length_eq_zero (Nat.le_zero.1 hs)
    subst h; rfl
  | succ n ih =>
    intro s hs
    cases s with
    | nil => rfl
    | cons c cs =>
      cases hmu : matchUsage (c :: cs) with
      | some pr =>
        obtain ⟨t, ref, rest⟩ := pr
        rw [usageSplit_match hmu, joinOrig]
        have hr : rest.length < cs.length + 1 := matchUsage_length hmu
        rw [ih rest (by simp at hs; omega)]
        obtain ⟨-, -, -, -, hshape⟩ := matchUsage_eq_some hmu
        rw [hshape]
      | none =>
        rw [usageSplit_nomatch hmu, joinOrig]
        rw [ih cs (by simpa using hs)]
        rfl

lemma joinImage_usageSplit : ∀ (n : Nat) (refs : List (List Char × List Char))
    (s : List Char), s.length ≤ n → joinImage refs (usageSplit s) = subUsages refs s := by
  intro n
  induction n with
  | zero =>
    intro refs s hs
    have h : s = [] := List.eq_nil_of_length_eq_zero (Nat.le_zero.1 hs)
    subst h; rfl
  | succ n ih =>
    intro refs s hs
    cases s with
    | nil => rfl
    | cons c cs =>
      cases hmu : matchUsage (c :: cs) with
      | some pr =>
        obtain ⟨t, ref, rest⟩ := pr
        rw [usageSplit_match hmu, joinImage, subUsages_match hmu]
        have hr : rest.length < cs.length + 1 := matchUsage_length hmu
        rw [ih refs rest (by simp at hs; omega)]
      | none =>
        rw [usageSplit_nomatch hmu, joinImage, subUsages_nomatch hmu,
          ih refs cs (by simpa using hs)]
        rfl

/-! Computing `trim` on text of the shape it takes in the proofs: a
non-whitespace first character, a non-whitespace last character before a
trailing run of whitespace. -/

lemma dropWhile_pySpace_cons {a : Char} {s : List Char} (ha : pySpace a = false) :
    (a :: s).dropWhile pySpace = a :: s := by
  rw [List.dropWhile_cons, ha]
  simp

lemma trim_shape {a b : Char} {mid ws : List Char} (ha : pySpace a = false)
    (hb : pySpace b = false) (hws : ∀ c ∈ ws, pySpace c = true) :
    trim (a :: (mid ++ b :: ws)) = a :: (mid ++ [b]) := by
  rw [trim, dropWhile_pySpace_cons ha]
  have h1 : (a :: (mid ++ b :: ws)).reverse = ws.reverse ++ b :: (mid.reverse ++ [a]) := by
    simp [List.reverse_cons, List.reverse_append, List.append_assoc]
  rw [h1, dropWhile_middle (fun c hc => hws c (by simpa using hc)) hb]
  simp [List.reverse_append, List.reverse_cons]

/-! The two outcomes of the usage-rewriting scan at a match it reaches:
a resolvable key becomes an inline link, an unresolvable key is emitted
unchanged; in both cases the scan continues right after the match. -/

lemma subUsages_resolved (refs : List (List Char × List Char))
    (pre T r U post : List Char) (hpre : ∀ c ∈ pre, c ≠ '[')
    (hT : T ≠ []) (hT2 : ∀ c ∈ T, c ≠ ']') (hr : r ≠ []) (hr2 : ∀ c ∈ r, c ≠ ']')
    (hlook : lookup refs r = some U) :
    subUsages refs (pre ++ '[' :: (T ++ ']' :: '[' :: (r ++ ']' :: post))) =
      pre ++ ('[' :: (T ++ ']' :: '(' :: (U ++ [')']))) ++ subUsages refs post := by
  rw [subUsages_copy hpre, subUsages_match (matchUsage_head hT hT2 hr hr2),
    replace_link, hlook]
  simp [List.append_assoc]

lemma subUsages_dangling (refs : List (List Char × List Char))
    (pre T x post : List Char) (hpre : ∀ c ∈ pre, c ≠ '[')
    (hT : T ≠ []) (hT2 : ∀ c ∈ T, c ≠ ']') (hx : x ≠ []) (hx2 : ∀ c ∈ x, c ≠ ']')
    (hlook : lookup refs x = none) :
    subUsages refs (pre ++ '[' :: (T ++ ']' :: '[' :: (x ++ ']' :: post))) =
      pre ++ ('[' :: (T ++ ']' :: '[' :: (x ++ [']']))) ++ subUsages refs post := by
  rw [subUsages_copy hpre, subUsages_match (matchUsage_head hT hT2 hx hx2),
    replace_link, hlook]
  simp [List.append_assoc]

/-- A usage attempt whose second bracket pair is empty fails (the pattern
needs at least one non-`]` character there). -/
lemma matchUsage_empty_ref {T rest : List Char} (hT : T ≠ []) (hT2 : ∀ c ∈ T, c ≠ ']') :
    matchUsage ('[' :: (T ++ ']' :: '[' :: ']' :: rest)) = none := by
  have tw : (T ++ ']' :: '[' :: ']' :: rest).takeWhile nonRB = T :=
    takeWhile_middle (fun c hc => nonRB_of_ne (hT2 c hc)) nonRB_rb
  have dw : (T ++ ']' :: '[' :: ']' :: rest).dropWhile nonRB = ']' :: '[' :: ']' :: rest :=
    dropWhile_middle (fun c hc => nonRB_of_ne (hT2 c hc)) nonRB_rb
  rw [matchUsage, if_pos rfl, tw, dw, if_neg hT]
  simp only []
  rw [if_pos ⟨trivial, trivial⟩, takeWhile_nonRB_rb, if_pos rfl]

/-! The trace of the stripping scan: the input split into kept characters
and the full matched text of each deleted definition match.  Joining all
segments restores the input; joining only the kept ones is exactly the
stripping pass's output — so the pass deletes its matches and leaves every
other character byte-identical. -/

lemma take_length_append : ∀ (A rest : List Char), (A ++ rest).take A.length = A
  | [], _ => rfl
  | a :: A, rest => by
    rw [List.cons_append, List.length_cons, List.take_succ_cons, take_length_append A rest]

lemma matchDef_split {s : List Char} {kv : List Char × List Char} {rest : List Char}
    (h : matchDef s = some (kv, rest)) : ∃ A, s = A ++ rest := by
  obtain ⟨k, t⟩ := kv
  obtain ⟨-, -, ⟨w, hs, -⟩, -, -, -⟩ := matchDef_eq_some h
  exact ⟨'[' :: (k ++ ']' :: ':' :: (w ++ t)), by rw [hs]; simp [List.append_assoc]⟩

def defSplitF : Nat → Bool → List Char → List ((List Char) ⊕ (List Char))
  | 0, _, _ => []
  | _ + 1, _, [] => []
  | n + 1, b, c :: cs =>
    if b then
      match matchDef (c :: cs) with
      | some (_, rest) =>
        Sum.inr ((c :: cs).take ((c :: cs).length - rest.length)) :: defSplitF n false rest
      | none => Sum.inl [c] :: defSplitF n (isNL c) cs
    else Sum.inl [c] :: defSplitF n (isNL c) cs

def defSplit (b : Bool) (s : List Char) : List ((List Char) ⊕ (List Char)) :=
  defSplitF s.length b s

lemma defSplitF_nil : ∀ (n : Nat) (b : Bool), defSplitF n b [] = []
  | 0, _ => rfl
  | _ + 1, _ => rfl

lemma defSplitF_congr : ∀ {n m : Nat} {b : Bool} {s : List Char},
    s.length ≤ n → s.length ≤ m → defSplitF n b s = defSplitF m b s := by
  intro n
  induction n with
  | zero =>
    intro m b s hn _
    have hs : s = [] := List.eq_nil_of_length_eq_zero (Nat.le_zero.1 hn)
    subst hs; rw [defSplitF_nil, defSplitF_nil]
  | succ n ih =>
    intro m b s hn hm
    cases s with
    | nil => rw [defSplitF_nil, defSplitF_nil]
    | cons c cs =>
      cases m with
      | zero => exact absurd hm (by simp)
      | succ m =>
        simp only [defSplitF]
        have hcs : cs.length ≤ n := by simpa using hn
        have hcs' : cs.length ≤ m := by simpa using hm
        cases b with
        | false =>
          show Sum.inl [c] :: defSplitF n (isNL c) cs =
            Sum.inl [c] :: defSplitF m (isNL c) cs
          exact congrArg _ (ih hcs hcs')
        | true =>
          simp only [if_pos trivial]
          cases hmd : matchDef (c :: cs) with
          | none =>
            show Sum.inl [c] :: defSplitF n (isNL c) cs =
              Sum.inl [c] :: defSplitF m (isNL c) cs
            exact congrArg _ (ih hcs hcs')
          | some pr =>
            obtain ⟨⟨k, t⟩, rest⟩ := pr
            have hr : rest.length < cs.length + 1 := matchDef_length hmd
            exact congrArg _ (ih (by omega) (by omega))

lemma defSplit_false_cons {c : Char} {cs : List Char} :
    defSplit false (c :: cs) = Sum.inl [c] :: defSplit (isNL c) cs := rfl

lemma defSplit_match {c : Char} {cs : List Char} {kv : List Char × List Char}
    {rest : List Char} (h : matchDef (c :: cs) = some (kv, rest)) :
    defSplit true (c :: cs) =
      Sum.inr ((c :: cs).take ((c :: cs).length - rest.length)) :: defSplit false rest := by
  show defSplitF (cs.length + 1) true (c :: cs) = _
  simp only [defSplitF, if_pos trivial, h]
  obtain ⟨k, t⟩ := kv
  have hr : rest.length < cs.length + 1 := matchDef_length h
  exact congrArg _ (defSplitF_congr (by omega) (le_refl _))

lemma defSplit_nomatch {c : Char} {cs : List Char} (h : matchDef (c :: cs) = none) :
    defSplit true (c :: cs) = Sum.inl [c] :: defSplit (isNL c) cs := by
  show defSplitF (cs.length + 1) true (c :: cs) = _
  simp only [defSplitF, if_pos trivial, h]
  rfl

/-- Concatenation of all segments of the stripping trace. -/
def joinOrigD : List ((List Char) ⊕ (List Char)) → List Char
  | [] => []
  | Sum.inl cs :: xs => cs ++ joinOrigD xs
  | Sum.inr m :: xs => m ++ joinOrigD xs

/-- Concatenation of only the kept runs: each deleted definition match is
replaced by the empty string. -/
def joinKept : List ((List Char) ⊕ (List Char)) → List Char
  | [] => []
  | Sum.inl cs :: xs => cs ++ joinKept xs
  | Sum.inr _ :: xs => joinKept xs

lemma joinOrigD_defSplit : ∀ (n : Nat) (b : Bool) (s : List Char), s.length ≤ n →
    joinOrigD (defSplit b s) = s := by
  intro n
  induction n with
  | zero =>
    intro b s hs
    have h : s = [] := List.eq_nil_of_length_eq_zero (Nat.le_zero.1 hs)
    subst h; rfl
  | succ n ih =>
    intro b s hs
    cases s with
    | nil => rfl
    | cons c cs =>
      cases b with
      | false =>
        rw [defSplit_false_cons, joinOrigD, ih (isNL c) cs (by simpa using hs)]
        rfl
      | true =>
        cases hmd : matchDef (c :: cs) with
        | some pr =>
          obtain ⟨kv, rest⟩ := pr
          rw [defSplit_match hmd, joinOrigD]
          have hlen : rest.length < cs.length + 1 := matchDef_length hmd
          rw [ih false rest (by simp at hs; omega)]
          obtain ⟨A, hA⟩ := matchDef_split hmd
          rw [hA]
          have h1 : (A ++ rest).length - rest.length = A.length := by
            simp [List.length_append]
          rw [h1, take_length_append]
        | none =>
          rw [defSplit_nomatch hmd, joinOrigD, ih (isNL c) cs (by simpa using hs)]
          rfl

lemma joinKept_defSplit : ∀ (n : Nat) (b : Bool) (s : List Char), s.length ≤ n →
    joinKept (defSplit b s) = stripDefs b s := by
  intro n
  induction n with
  | zero =>
    intro b s hs
    have h : s = [] := List.eq_nil_of_length_eq_zero (Nat.le_zero.1 hs)
    subst h; rfl
  | succ n ih =>
    intro b s hs
    cases s with
    | nil => rfl
    | cons c cs =>
      cases b with
      | false =>
        rw [defSplit_false_cons, joinKept, stripDefs_false_cons,
          ih (isNL c) cs (by simpa using hs)]
        rfl
      | true =>
        cases hmd : matchDef (c :: cs) with
        | some pr =>
          obtain ⟨kv, rest⟩ := pr
          have hlen : rest.length < cs.length + 1 := matchDef_length hmd
          rw [defSplit_match hmd, joinKept, stripDefs_match hmd,
            ih false rest (by simp at hs; omega)]
        | none =>
          rw [defSplit_nomatch hmd, joinKept, stripDefs_nomatch hmd,
            ih (isNL c) cs (by simpa using hs)]
          rfl

/-! Claim theorems. -/

/-- Claim C1, counterexample to the claim as stated: in the document
`[x][a]` + `[a]: q[T][r]q` + `[r]: U` a definition `[r]: U` exists, the
usage `[T][r]` exists (on the `[a]:` definition line) and `r` resolves to
`U`, yet the transformed output `[x](q[T][r]q)` does not contain `[T](U)`
and does contain the literal `[T][r]` (the rewrite of `[x][a]` pastes the
raw target of `a`, re-introducing `[T][r]`, and the rewritten copy sat on a
definition line that was stripped). -/
theorem c1_counterexample :
    lookup (reference_links (("[x][a]\n[a]: q[T][r]q\n[r]: U").toList)) (("r").toList) =
      some (("U").toList) ∧
    occursIn (("[T][r]").toList) (("[x][a]\n[a]: q[T][r]q\n[r]: U").toList) = true ∧
    process_file (("[x][a]\n[a]: q[T][r]q\n[r]: U").toList) =
      ((("[x](q[T][r]q)").toList), true) ∧
    occursIn (("[T](U)").toList) (("[x](q[T][r]q)").toList) = false ∧
    occursIn (("[T][r]").toList) (("[x](q[T][r]q)").toList) = true := by
  decide

/-- Claim C1 (amended): a usage `[T][r]` that the left-to-right
non-overlapping rewrite scan reaches (here: one preceded by text without
`[`, so no earlier match overlaps it) whose key `r` resolves to `U` in the
document's reference table is replaced by `[T](U)`, and the rewrite pass's
output therefore contains `[T](U)`; occurrences overlapped by an earlier
match, or re-introduced into the output by a pasted target value, or
sitting on a definition line that the later stripping pass removes, are
exempt. -/
theorem c1_theorem (content pre T r U post : List Char)
    (hc : content = pre ++ '[' :: (T ++ ']' :: '[' :: (r ++ ']' :: post)))
    (hpre : ∀ c ∈ pre, c ≠ '[')
    (hT : T ≠ []) (hT2 : ∀ c ∈ T, c ≠ ']')
    (hr : r ≠ []) (hr2 : ∀ c ∈ r, c ≠ ']')
    (hlook : lookup (reference_links content) r = some U) :
    subUsages (reference_links content) content =
      pre ++ ('[' :: (T ++ ']' :: '(' :: (U ++ [')']))) ++
        subUsages (reference_links content) post ∧
    occursIn ('[' :: (T ++ ']' :: '(' :: (U ++ [')'])))
      (subUsages (reference_links content) content) = true := by
  have key := subUsages_resolved (reference_links content) pre T r U post hpre hT hT2 hr hr2 hlook
  rw [← hc] at key
  exact ⟨key, by rw [key]; exact occursIn_of_append ..⟩

/-- Claim C1, witness for the amended theorem at a concrete document. -/
theorem c1_witness :
    subUsages (reference_links (("go [x][a].\n[a]: u").toList))
        (("go [x][a].\n[a]: u").toList) =
      ("go ").toList ++ ('[' :: (("x").toList ++ ']' :: '(' :: (("u").toList ++ [')']))) ++
        subUsages (reference_links (("go [x][a].\n[a]: u").toList)) ((".\n[a]: u").toList) ∧
    occursIn ('[' :: (("x").toList ++ ']' :: '(' :: (("u").toList ++ [')'])))
      (subUsages (reference_links (("go [x][a].\n[a]: u").toList))
        (("go [x][a].\n[a]: u").toList)) = true :=
  c1_theorem (("go [x][a].\n[a]: u").toList) (("go ").toList) (("x").toList)
    (("a").toList) (("u").toList) ((".\n[a]: u").toList)
    (by decide) (by decide) (by decide) (by decide) (by decide) (by decide) (by decide)

/-- Claim C2, counterexample to the claim as stated: on a document with no
definition lines the transform returns the input text unchanged, NOT
trimmed of leading/trailing whitespace (the source returns before the
final `.strip()` is ever reached). -/
theorem c2_counterexample :
    findDefs true (("  x  ").toList) = [] ∧
    process_file (("  x  ").toList) = ((("  x  ").toList), false) ∧
    trim (("  x  ").toList) ≠ ("  x  ").toList := by
  decide

/-- Claim C2 (amended): for every document with zero reference-definition
lines the transform returns the input text unchanged (no trim is applied)
and signals "no reference links found". -/
theorem c2_theorem (d : List Char) (h : findDefs true d = []) :
    process_file d = (d, false) :=
  process_file_no_defs h

/-- Claim C2, witness at a concrete document. -/
theorem c2_witness :
    process_file (("no reference links here").toList) =
      ((("no reference links here").toList), false) :=
  c2_theorem (("no reference links here").toList) (by decide)

/-- Claim C3, counterexample to the claim as stated: for the input
`[d]: u` + newline + `  [a]: x` the full transform outputs the line
`[a]: x`, which matches the reference-definition pattern — the final
`.strip()` removed the whitespace in front of the indented (hence never
matched, never stripped) definition-lookalike and promoted it to a line
start. -/
theorem c3_counterexample :
    process_file (("[d]: u\n  [a]: x").toList) = ((("[a]: x").toList), true) ∧
    noDefs true (("[a]: x").toList) = false := by
  decide

/-- Claim C3 (amended): after the usage-rewriting pass and the
definition-stripping pass — i.e. on the transform's result before the
final trim — no line matches `^\[([^\]]+)\]:\s*(.+)$`, including lines
whose keys were never referenced; the final leading-whitespace trim can
however expose an indented definition-lookalike at the start of the
document, where it then matches. -/
theorem c3_theorem (content : List Char) :
    noDefs true (stripDefs true (subUsages (reference_links content) content)) = true :=
  noDefs_stripDefs _ _ (le_refl _) true

/-- Claim C4, counterexample to the claim as stated: in
`[A][T][x]` + `[T]: V` the usage `[T][x]` has no definition for `x`, yet it
does not appear in the output `[A](V)[x]`: the scan consumed `[A][T]` first
(matches do not overlap), so the `[T]` bracket pair was rewritten away as
the reference key of the earlier match. -/
theorem c4_counterexample :
    findDefs true (("[A][T][x]\n[T]: V").toList) ≠ [] ∧
    lookup (reference_links (("[A][T][x]\n[T]: V").toList)) (("x").toList) = none ∧
    occursIn (("[T][x]").toList) (("[A][T][x]\n[T]: V").toList) = true ∧
    process_file (("[A][T][x]\n[T]: V").toList) = ((("[A](V)[x]").toList), true) ∧
    occursIn (("[T][x]").toList) (("[A](V)[x]").toList) = false := by
  decide

/-- Claim C4 (amended): a usage `[T][x]` that the left-to-right
non-overlapping rewrite scan reaches (here: one preceded by text without
`[`) whose key `x` has no entry in the reference table is emitted
byte-identically (the replacement is the whole original match) and the
scan continues after it; occurrences overlapped by an earlier match, or
sitting on a definition line that the stripping pass later removes, are
exempt. -/
theorem c4_theorem (content pre T x post : List Char)
    (hc : content = pre ++ '[' :: (T ++ ']' :: '[' :: (x ++ ']' :: post)))
    (hpre : ∀ c ∈ pre, c ≠ '[')
    (hT : T ≠ []) (hT2 : ∀ c ∈ T, c ≠ ']')
    (hx : x ≠ []) (hx2 : ∀ c ∈ x, c ≠ ']')
    (hlook : lookup (reference_links content) x = none) :
    subUsages (reference_links content) content =
      pre ++ ('[' :: (T ++ ']' :: '[' :: (x ++ [']']))) ++
        subUsages (reference_links content) post ∧
    occursIn ('[' :: (T ++ ']' :: '[' :: (x ++ [']'])))
      (subUsages (reference_links content) content) = true := by
  have key := subUsages_dangling (reference_links content) pre T x post hpre hT hT2 hx hx2 hlook
  rw [← hc] at key
  exact ⟨key, by rw [key]; exact occursIn_of_append ..⟩

/-- Claim C4, witness for the amended theorem at a concrete document. -/
theorem c4_witness :
    subUsages (reference_links (("see [T][zz].\n[a]: u").toList))
        (("see [T][zz].\n[a]: u").toList) =
      ("see ").toList ++ ('[' :: (("T").toList ++ ']' :: '[' :: (("zz").toList ++ [']']))) ++
        subUsages (reference_links (("see [T][zz].\n[a]: u").toList)) ((".\n[a]: u").toList) ∧
    occursIn ('[' :: (("T").toList ++ ']' :: '[' :: (("zz").toList ++ [']'])))
      (subUsages (reference_links (("see [T][zz].\n[a]: u").toList))
        (("see [T][zz].\n[a]: u").toList)) = true :=
  c4_theorem (("see [T][zz].\n[a]: u").toList) (("see ").toList) (("T").toList)
    (("zz").toList) ((".\n[a]: u").toList)
    (by decide) (by decide) (by decide) (by decide) (by decide) (by decide) (by decide)

/-- Claim C5, counterexample to the claim as stated: for the input
`[d]: u` + newline + `  [b]: y` the first transform outputs `[b]: y`
(which, contrary to the claim's parenthetical, still contains a
reference-definition line — the final trim exposed it), and a second
application turns it into the empty document instead of leaving it
unchanged. -/
theorem c5_counterexample :
    process_file (("[d]: u\n  [b]: y").toList) = ((("[b]: y").toList), true) ∧
    process_file (("[b]: y").toList) = (([] : List Char), true) ∧
    ("[b]: y").toList ≠ ([] : List Char) := by
  decide

/-- Claim C5 (amended): the transform is idempotent on every output that
contains no line matching the definition pattern (which is every converted
output except those where the final trim exposed an indented
definition-lookalike): running the transform again on such a result
returns it unchanged with the nothing-to-convert signal. -/
theorem c5_theorem (d : List Char) (h : noDefs true (process_file d).1 = true) :
    process_file (process_file d).1 = ((process_file d).1, false) :=
  process_file_no_defs (findDefs_nil_of_noDefs h)

/-- Claim C5, witness at a concrete document. -/
theorem c5_witness :
    process_file (process_file (("a [b][c] z\n[c]: u").toList)).1 =
      ((process_file (("a [b][c] z\n[c]: u").toList)).1, false) :=
  c5_theorem (("a [b][c] z\n[c]: u").toList) (by decide)

/-- Claim C6, counterexample to the claim as stated: the definition line
`[a]: u ` (with a trailing space before the newline) stores the value
`"u "` with the trailing space preserved — `(.+)$` is greedy and `$`
matches only before the newline, so trailing whitespace is NOT trimmed. -/
theorem c6_counterexample :
    findDefs true (("[a]: u \n").toList) = [((("a").toList), ("u ").toList)] ∧
    lookup (reference_links (("[a]: u \n").toList)) (("a").toList) =
      some (("u ").toList) ∧
    ("u ").toList ≠ ("u").toList := by
  decide

/-- Claim C6 (amended): for a definition line whose target text lies on the
same line (`[k]:` + same-line whitespace + target starting with a
non-whitespace character and running to the end of the line), the stored
value is the remainder of the line after the colon with leading whitespace
removed and trailing whitespace PRESERVED (not trimmed; the captured
target is everything up to, but not including, the line's newline).  When
only whitespace follows the colon on the line itself, `\s*` can cross the
newline and take the target from a later line instead. -/
theorem c6_theorem (k w post : List Char) (th : Char) (tt : List Char)
    (hk : k ≠ []) (hk2 : ∀ c ∈ k, c ≠ ']')
    (hw : ∀ c ∈ w, pySpace c = true ∧ c ≠ '\n')
    (hth : pySpace th = false)
    (htn : ∀ c ∈ th :: tt, c ≠ '\n')
    (hp : post = [] ∨ ∃ p', post = '\n' :: p') :
    findDefs true ('[' :: (k ++ ']' :: ':' :: (w ++ (th :: tt) ++ post))) =
      ((k, th :: tt)) :: findDefs false post :=
  findDefs_match (matchDef_head hk hk2 (fun c hc => (hw c hc).1) (by simp)
    (fun a as ha => by injection ha with h1 _; rw [← h1]; exact hth) htn hp)

/-- Claim C6, witness: the line `[a]: u ` followed by `\nz` stores the pair
`("a", "u ")` with its trailing space. -/
theorem c6_witness :
    findDefs true ('[' :: (("a").toList ++ ']' :: ':' ::
        ([' '] ++ ('u' :: [' ']) ++ ("\nz").toList))) =
      (((("a").toList), 'u' :: [' '])) :: findDefs false (("\nz").toList) :=
  c6_theorem (("a").toList) ([' ']) (("\nz").toList) 'u' ([' '])
    (by decide) (by decide) (by decide) (by decide) (by decide)
    (Or.inr ⟨("z").toList, rfl⟩)

/-- Claim C7: the core transform is a total computable function (all
definitions here are fuel-complete structural recursions), and, for every
input string whatsoever, it rewrites nothing outside the pattern matches:
the usage-rewriting scan's trace splits the input into kept characters and
matched `[text][ref]` segments — joining the originals restores the input
and joining the images is the pass's output, so only matched segments
change; the stripping scan's trace splits the input into kept characters
and deleted definition matches — joining all segments restores the input
and joining only the kept ones is the pass's output, so only the deleted
matches disappear and every other character is byte-identical; and a
document with no definition-pattern match at all is returned completely
unchanged. -/
theorem c7_theorem (refs : List (List Char × List Char)) (c : List Char) (b : Bool) :
    joinOrig (usageSplit c) = c ∧
    joinImage refs (usageSplit c) = subUsages refs c ∧
    joinOrigD (defSplit b c) = c ∧
    joinKept (defSplit b c) = stripDefs b c ∧
    (noDefs true c = true → process_file c = (c, false)) :=
  ⟨joinOrig_usageSplit c.length c (le_refl _),
   joinImage_usageSplit c.length refs c (le_refl _),
   joinOrigD_defSplit c.length b c (le_refl _),
   joinKept_defSplit c.length b c (le_refl _),
   fun h => process_file_no_defs (findDefs_nil_of_noDefs h)⟩

/-- Claim C7, witness: the stripping-trace parts at a document that does
contain a definition line (so stripping genuinely deletes something), and
the untouched-document part at a document with no definition lines. -/
theorem c7_witness :
    joinOrigD (defSplit true (("X\n[a]: u\nY").toList)) = ("X\n[a]: u\nY").toList ∧
    joinKept (defSplit true (("X\n[a]: u\nY").toList)) =
      stripDefs true (("X\n[a]: u\nY").toList) ∧
    process_file (("see [a](u) and [b][c] end").toList) =
      ((("see [a](u) and [b][c] end").toList), false) :=
  ⟨(c7_theorem [] (("X\n[a]: u\nY").toList) true).2.2.1,
   (c7_theorem [] (("X\n[a]: u\nY").toList) true).2.2.2.1,
   (c7_theorem [] (("see [a](u) and [b][c] end").toList) true).2.2.2.2 (by decide)⟩

/-- Claim C8, counterexample to the claim as stated: in
`[x][A][k]` + `[k]: a` + `[k]: b` the key `k` appears on two definition
lines and the table maps it to the last target `b`, and the usage `[A][k]`
of that key exists — yet the output `[x][A][k]` keeps `[A][k]` unrewritten
(and contains no `[A](b)`): the scan consumed `[x][A]` first (`A` is
unresolvable but the match is still consumed whole), so the `[A][k]`
occurrence was never a match of the scan. -/
theorem c8_counterexample :
    findDefs true (("[x][A][k]\n[k]: a\n[k]: b").toList) =
      [((("k").toList), ("a").toList), ((("k").toList), ("b").toList)] ∧
    lookup (reference_links (("[x][A][k]\n[k]: a\n[k]: b").toList)) (("k").toList) =
      some (("b").toList) ∧
    occursIn (("[A][k]").toList) (("[x][A][k]\n[k]: a\n[k]: b").toList) = true ∧
    process_file (("[x][A][k]\n[k]: a\n[k]: b").toList) = ((("[x][A][k]").toList), true) ∧
    occursIn (("[A](b)").toList) (("[x][A][k]").toList) = false ∧
    occursIn (("[A][k]").toList) (("[x][A][k]").toList) = true := by
  decide

/-- Claim C8 (amended): when the same reference key appears on multiple
definition lines, building the `dict` makes the last occurrence win — for
every pair sequence, lookup of `dict(pairs)` is the value of the last pair
with that key, hence the ReferenceTable maps the key to the target of the
last collected definition line — and every usage of that key that the
rewrite scan reaches (here: one preceded by `[`-free text) is rewritten
with exactly that last target; usages overlapped by an earlier match are
exempt and stay unrewritten.  On the concrete two-definition document the
whole pipeline rewrites the usage with the second target. -/
theorem c8_theorem :
    (∀ (ps : List (List Char × List Char)) (k : List Char),
      lookup (dictOf ps) k = lastDef ps k) ∧
    (∀ (content pre T k U post : List Char),
      content = pre ++ '[' :: (T ++ ']' :: '[' :: (k ++ ']' :: post)) →
      (∀ c ∈ pre, c ≠ '[') →
      T ≠ [] → (∀ c ∈ T, c ≠ ']') → k ≠ [] → (∀ c ∈ k, c ≠ ']') →
      lastDef (findDefs true content) k = some U →
      subUsages (reference_links content) content =
        pre ++ ('[' :: (T ++ ']' :: '(' :: (U ++ [')']))) ++
          subUsages (reference_links content) post) ∧
    process_file (("[T][k]\n[k]: a\n[k]: b").toList) = ((("[T](b)").toList), true) := by
  refine ⟨fun _ _ => lookup_dictOf, ?_, by decide⟩
  intro content pre T k U post hc hpre hT hT2 hk hk2 hlast
  have hlook : lookup (reference_links content) k = some U := by
    rw [reference_links, lookup_dictOf]
    exact hlast
  have key := subUsages_resolved (reference_links content) pre T k U post hpre hT hT2 hk hk2 hlook
  rw [← hc] at key
  exact key

/-- Claim C8, witness for the amended theorem: on `[T][k]` with duplicate
definitions `[k]: a` and `[k]: b`, the scan-reached usage is rewritten
with the last target `b`. -/
theorem c8_witness :
    subUsages (reference_links (("[T][k]\n[k]: a\n[k]: b").toList))
        (("[T][k]\n[k]: a\n[k]: b").toList) =
      [] ++ ('[' :: (("T").toList ++ ']' :: '(' :: (("b").toList ++ [')']))) ++
        subUsages (reference_links (("[T][k]\n[k]: a\n[k]: b").toList))
          (("\n[k]: a\n[k]: b").toList) :=
  c8_theorem.2.1 (("[T][k]\n[k]: a\n[k]: b").toList) [] (("T").toList) (("k").toList)
    (("b").toList) (("\n[k]: a\n[k]: b").toList)
    (by decide) (by decide) (by decide) (by decide) (by decide) (by decide) (by decide)

/-- Claim C9, counterexample to the claim as stated: in
`X` + `\n[a]:` + `\nt` + `\nY` the definition match starting at the `[a]:`
line spans the line break (`\s*` also matches newlines), so stripping
consumes that line's terminating newline together with the following line
`t`: the output is `X\n\nY` — the two input lines collapse into a single
empty line instead of the match ending before the newline. -/
theorem c9_counterexample :
    process_file (("X\n[a]:\nt\nY").toList) = ((("X\n\nY").toList), true) ∧
    matchDef (("[a]:\nt\nY").toList) =
      some (((("a").toList), ("t").toList), ("\nY").toList) ∧
    ("X\n\nY").toList ≠ ("X\n\nt\nY").toList := by
  decide

/-- Claim C9 (amended): for a definition line whose target sits on the same
line, the strip replaces exactly the matched text (which ends before the
line's newline, since `.` does not match newlines) with the empty string:
the terminating newline survives and an empty line remains at that
position, subject only to the final whole-document trim.  When the target
sits on a following line, the `\s*` part consumes the intervening
newline(s) and only the final line's newline survives. -/
theorem c9_theorem (k w B : List Char) (th : Char) (tt : List Char)
    (hk : k ≠ []) (hk2 : ∀ c ∈ k, c ≠ ']')
    (hw : ∀ c ∈ w, pySpace c = true ∧ c ≠ '\n')
    (hth : pySpace th = false) (htn : ∀ c ∈ th :: tt, c ≠ '\n') :
    stripDefs true ('[' :: (k ++ ']' :: ':' :: (w ++ (th :: tt) ++ '\n' :: B))) =
      '\n' :: stripDefs true B := by
  rw [stripDefs_match (matchDef_head hk hk2 (fun c hc => (hw c hc).1) (by simp)
      (fun a as ha => by injection ha with h1 _; rw [← h1]; exact hth) htn
      (Or.inr ⟨B, rfl⟩)),
    stripDefs_false_cons, show isNL '\n' = true from rfl]

/-- Claim C9, witness: stripping `[a]: x` at the head of a document keeps
the newline that terminated the definition line. -/
theorem c9_witness :
    stripDefs true (("[a]: x\nrest").toList) = '\n' :: stripDefs true (("rest").toList) :=
  c9_theorem (("a").toList) ([' ']) (("rest").toList) 'x' []
    (by decide) (by decide) (by decide) (by decide) (by decide)

/-- Claim C10, counterexample to the claim as stated: the document
`[a[][r]` + `\n[r]: U` contains the empty-text usage substring `[][r]`,
yet the output `[a[](U)` no longer contains it: the brackets of the empty
pair were absorbed into the surrounding match `[a[][r]` (text `a[`,
key `r`), which was rewritten. -/
theorem c10_counterexample :
    occursIn (("[][r]").toList) (("[a[][r]\n[r]: U").toList) = true ∧
    process_file (("[a[][r]\n[r]: U").toList) = ((("[a[](U)").toList), true) ∧
    occursIn (("[][r]").toList) (("[a[](U)").toList) = false := by
  decide

/-- Claim C10 (amended): neither pattern ever matches with an empty bracket
pair as one of its captures (each requires at least one non-`]` character):
a match's text and key are always nonempty, a collected definition key is
always nonempty, a standalone `[][r]` is never rewritten (the scan steps
over `[` and `]` and continues), a line starting `[]` is neither collected
nor stripped, and `[T][]` is never rewritten when `T` contains no brackets.
The brackets of an empty pair can, however, be absorbed into a surrounding
larger match and disappear with it. -/
theorem c10_theorem :
    (∀ (s t f rest : List Char), matchUsage s = some (t, f, rest) → t ≠ [] ∧ f ≠ []) ∧
    (∀ (s : List Char) (kv : List Char × List Char) (rest : List Char),
      matchDef s = some (kv, rest) → kv.1 ≠ []) ∧
    (∀ (refs : List (List Char × List Char)) (rest : List Char),
      subUsages refs ('[' :: ']' :: rest) = '[' :: ']' :: subUsages refs rest) ∧
    (∀ rest : List Char,
      stripDefs true ('[' :: ']' :: rest) = '[' :: ']' :: stripDefs false rest) ∧
    (∀ rest : List Char, findDefs true ('[' :: ']' :: rest) = findDefs false rest) ∧
    (∀ (refs : List (List Char × List Char)) (T rest : List Char), T ≠ [] →
      (∀ c ∈ T, c ≠ ']' ∧ c ≠ '[') →
      subUsages refs ('[' :: (T ++ ']' :: '[' :: ']' :: rest)) =
        '[' :: (T ++ ']' :: '[' :: ']' :: subUsages refs rest)) := by
  refine ⟨?_, ?_, ?_, ?_, ?_, ?_⟩
  · intro s t f rest h
    obtain ⟨ht, hf, -, -, -⟩ := matchUsage_eq_some h
    exact ⟨ht, hf⟩
  · intro s kv rest h
    obtain ⟨k, t⟩ := kv
    obtain ⟨hk, -, -, -, -, -⟩ := matchDef_eq_some h
    exact hk
  · intro refs rest
    rw [subUsages_nomatch matchUsage_empty_text,
      subUsages_nomatch (matchUsage_ne_head (by decide))]
  · intro rest
    rw [stripDefs_nomatch matchDef_empty_key, show isNL '[' = false from rfl,
      stripDefs_false_cons, show isNL ']' = false from rfl]
  · intro rest
    rw [findDefs_nomatch matchDef_empty_key, show isNL '[' = false from rfl,
      findDefs_false_cons, show isNL ']' = false from rfl]
  · intro refs T rest hT hT2
    rw [subUsages_nomatch (matchUsage_empty_ref hT (fun c hc => (hT2 c hc).1)),
      subUsages_copy (fun c hc => (hT2 c hc).2),
      subUsages_nomatch (matchUsage_ne_head (by decide)),
      subUsages_nomatch matchUsage_empty_text,
      subUsages_nomatch (matchUsage_ne_head (by decide))]

/-- Claim C10, witness for the amended theorem at concrete inputs. -/
theorem c10_witness :
    (("a").toList ≠ [] ∧ ("b").toList ≠ []) ∧
    subUsages [] (("[][r]").toList) = '[' :: ']' :: subUsages [] (("[r]").toList) ∧
    subUsages [] (("[T][]x").toList) =
      '[' :: (("T").toList ++ ']' :: '[' :: ']' :: subUsages [] (("x").toList)) :=
  ⟨c10_theorem.1 (("[a][b]x").toList) (("a").toList) (("b").toList) (("x").toList)
      (by decide),
   c10_theorem.2.2.1 [] (("[r]").toList),
   c10_theorem.2.2.2.2.2 [] (("T").toList) (("x").toList) (by decide) (by decide)⟩

end MdLinkInline
